import Mathlib

/-!
Verification development for a personal expense-tracking application
consisting of a storage module (`db.py`: SQLite table `expenses`) and a
presentation module (`app.py`: add-expense form, filtered view/export,
analytics dashboard, demo seeding).  The definitions below are a shallow
embedding of those two modules: calendar dates are triples of naturals,
currency amounts are rationals (the code uses binary floats; none of the
properties verified here depend on float rounding), SQL `TEXT` columns are
`String`, nullable columns are `Option`, and the ambient clock
(`CURRENT_TIMESTAMP`) is passed as an explicit argument.
-/

/-- A calendar date, mirroring the year/month/day fields of a Python
`datetime.date` (which compares lexicographically on these fields). -/
structure Date where
  year : Nat
  month : Nat
  day : Nat
deriving DecidableEq, Repr

/-- Chronological strict order on dates: exactly the comparison used by
`datetime.date` and by pandas `Timestamp`s at day granularity. -/
def Date.lt (a b : Date) : Prop :=
  a.year < b.year ∨
    (a.year = b.year ∧ (a.month < b.month ∨ (a.month = b.month ∧ a.day < b.day)))

instance (a b : Date) : Decidable (Date.lt a b) := by
  unfold Date.lt
  exact inferInstance

/-- Chronological reflexive order on dates. -/
def Date.le (a b : Date) : Prop := Date.lt a b ∨ a = b

instance (a b : Date) : Decidable (Date.le a b) := by
  unfold Date.le
  exact inferInstance

/-- Dates actually representable by the application: four-digit years (so
that `strftime("%Y-%m-%d")` pads the year to exactly four digits) and
month/day fields in calendar range. -/
def Date.valid (d : Date) : Prop :=
  1000 ≤ d.year ∧ d.year ≤ 9999 ∧ 1 ≤ d.month ∧ d.month ≤ 12 ∧ 1 ≤ d.day ∧ d.day ≤ 31

instance (d : Date) : Decidable (Date.valid d) := by
  unfold Date.valid
  exact inferInstance

/-- The ASCII digit character for `n < 10`. -/
def digitChar (n : Nat) : Char := Char.ofNat (48 + n)

/-- Two-digit zero-padded decimal rendering (`%m`, `%d` of `strftime`). -/
def pad2 (n : Nat) : List Char := [digitChar (n / 10), digitChar (n % 10)]

/-- Four-digit zero-padded decimal rendering (`%Y` of `strftime` for
four-digit years). -/
def pad4 (n : Nat) : List Char := pad2 (n / 100) ++ pad2 (n % 100)

/-- `d.strftime("%Y-%m-%d")`: the canonical ISO rendering used by
`db.add_expense` to normalize date/datetime inputs before storage. -/
def Date.toISO (d : Date) : String :=
  String.mk (pad4 d.year ++ '-' :: (pad2 d.month ++ '-' :: pad2 d.day))

/-- Day number of a date (days since 0000-03-01, proleptic Gregorian),
the standard civil-calendar day count; models the day-granularity
arithmetic of pandas `Timestamp`/`Timedelta`. -/
def Date.toDays (d : Date) : Nat :=
  let y := if d.month ≤ 2 then d.year - 1 else d.year
  let era := y / 400
  let yoe := y % 400
  let mp := (d.month + 9) % 12
  let doy := (153 * mp + 2) / 5 + (d.day - 1)
  let doe := yoe * 365 + yoe / 4 - yoe / 100 + doy
  era * 146097 + doe

/-! ## Storage layer (`db.py`)

The table `expenses(id, amount, category, date, notes, created_at)` is a
list of rows plus the `AUTOINCREMENT` counter.  `date` is a `TEXT` column
(`'YYYY-MM-DD'`), `notes` is nullable, `created_at` a `TEXT` timestamp
assigned at insert time. -/

/-- One row of the `expenses` table. -/
structure DBRow where
  id : Nat
  amount : ℚ
  category : String
  dateStr : String
  notes : Option String
  created_at : String
deriving DecidableEq, Repr

/-- The persistent store: the rows in insertion order plus the
`AUTOINCREMENT` id counter. -/
structure DBState where
  rows : List DBRow
  nextId : Nat
deriving DecidableEq, Repr

/-- `db.add_expense` accepts `date_str` either as a date object or as a
pre-formatted string; date objects are normalized with
`strftime("%Y-%m-%d")`, strings are stored as given. -/
def normalizeDate : Sum Date String → String
  | Sum.inl d => d.toISO
  | Sum.inr s => s

/-- `db.add_expense(amount, category, date_str, notes)`: inserts one row
with a fresh surrogate id and the server-assigned creation timestamp
`now`. -/
def add_expense (amount : ℚ) (category : String) (dateInput : Sum Date String)
    (notes : Option String) (now : String) (s : DBState) : DBState :=
  { rows := s.rows ++ [⟨s.nextId, amount, category, normalizeDate dateInput, notes, now⟩],
    nextId := s.nextId + 1 }

/-- `db.init_db`: `CREATE TABLE IF NOT EXISTS` — idempotent, touches no
rows. -/
def init_db (s : DBState) : DBState := s

/-- `ORDER BY date DESC, created_at DESC` row comparison: SQLite compares
`TEXT` columns bytewise (BINARY collation), which on the ASCII strings
involved coincides with Lean's codepoint-lexicographic `String` order.
`rowLe a b` holds when row `a` may appear at or before row `b`. -/
def rowLe (a b : DBRow) : Bool :=
  decide (b.dateStr < a.dateStr) ||
    (decide (a.dateStr = b.dateStr) && decide (b.created_at ≤ a.created_at))

/-- `db.fetch_expenses`: `SELECT * FROM expenses ORDER BY date DESC,
created_at DESC`.  (The subsequent `pd.to_datetime` parse of the `date`
column does not reorder rows.) -/
def fetch_expenses (s : DBState) : List DBRow :=
  s.rows.mergeSort rowLe

/-- The fixed category enumeration of the input UI and demo generator. -/
def demoCategories : List String :=
  ["Housing", "Food", "Transportation", "Utilities", "Entertainment", "Healthcare", "Other"]

/-- One iteration's random draws in `db.add_demo_data`: the amount
`round(uniform(5, 800), 2)`, the index drawn by `random.choice`, and the
date `today - Timedelta(days=randint(0, 365))`. -/
structure DemoDraw where
  amount : ℚ
  catIdx : Nat
  drawnDate : Date
deriving DecidableEq, Repr

/-- `db.add_demo_data`: seeds the table through the ordinary
`add_expense` path, one row per draw, with the fixed note
`"Demo expense"` and the date pre-formatted with `strftime`. -/
def add_demo_data (draws : List DemoDraw) (now : String) (s : DBState) : DBState :=
  draws.foldl
    (fun st dr =>
      add_expense dr.amount (demoCategories.getD dr.catIdx "Other")
        (Sum.inr dr.drawnDate.toISO) (some "Demo expense") now st)
    (init_db s)

/-- The complete storage-layer interface of `db.py`: initialize, insert,
unfiltered fetch, and demo-batch insert.  No constructor updates or
deletes existing rows. -/
inductive Op where
  | initDb
  | addExpense (amount : ℚ) (category : String) (dateInput : Sum Date String)
      (notes : Option String) (now : String)
  | fetchExpenses
  | addDemoData (draws : List DemoDraw) (now : String)

/-- State transition of one storage operation (`fetch_expenses` is a pure
read: its result is `fetch_expenses s`, the state is unchanged). -/
def applyOp (op : Op) (s : DBState) : DBState :=
  match op with
  | Op.initDb => init_db s
  | Op.addExpense a c d n t => add_expense a c d n t s
  | Op.fetchExpenses => s
  | Op.addDemoData dr t => add_demo_data dr t s

/-- State after a whole sequence of storage operations. -/
def applyOps (ops : List Op) (s : DBState) : DBState :=
  ops.foldl (fun st op => applyOp op st) s

/-! ## Presentation layer (`app.py`)

`df = db.fetch_expenses()` yields rows whose `date` column has been
parsed by `pd.to_datetime` into day-granularity timestamps; a `ViewRow`
is such a row, with `date` a parsed `Date`. -/

/-- One row of the in-memory dataframe `df`. -/
structure ViewRow where
  id : Nat
  amount : ℚ
  category : String
  date : Date
  notes : Option String
  created_at : String
deriving DecidableEq, Repr

/-- `df['amount'].sum()` over a (filtered) row list. -/
def sumAmounts (rs : List ViewRow) : ℚ :=
  (rs.map (fun r => r.amount)).sum

/-- View & Export date filter:
`filtered[(filtered['date'] >= pd.to_datetime(start_dt)) & (filtered['date'] <= pd.to_datetime(end_dt))]`;
timestamp comparison at day granularity is chronological `Date` order. -/
def dateRangeFilter (startD endD : Date) (rs : List ViewRow) : List ViewRow :=
  rs.filter (fun r => decide (Date.le startD r.date) && decide (Date.le r.date endD))

/-- View & Export category filter:
`if selected_cats: filtered = filtered[filtered['category'].isin(selected_cats)]` —
an empty Python list is falsy, so the filter is skipped entirely. -/
def categoryFilter (sel : List String) (rs : List ViewRow) : List ViewRow :=
  if sel.isEmpty then rs else rs.filter (fun r => sel.contains r.category)

/-- Pandas `astype(str)` on the nullable `notes` column: SQL `NULL`
(Python `None`) is rendered by `str(None)` as the literal string
`"None"`. -/
def astypeStr : Option String → String
  | some s => s
  | none => "None"

/-- ASCII lowercasing of a string's characters (the effect of
`case=False` matching for the alphanumeric search terms modelled here). -/
def lowerChars (s : String) : List Char :=
  s.toList.map Char.toLower

/-- Substring occurrence test on character lists. -/
def hasSub (h n : List Char) : Bool :=
  match h with
  | [] => n.isEmpty
  | c :: t => n.isPrefixOf (c :: t) || hasSub t n

/-- Case-insensitive containment: models
`Series.str.contains(pat, case=False)` for patterns free of regex
metacharacters (the code passes the raw search term as a regex; on
alphanumeric/space terms regex search is plain substring search). -/
def containsCI (hay pat : String) : Bool :=
  hasSub (lowerChars hay) (lowerChars pat)

/-- A search term containing no regex metacharacters, for which the
substring model of `str.contains` is exact. -/
def literalTerm (s : String) : Bool :=
  s.toList.all (fun c => c.isAlphanum || c == ' ')

/-- View & Export text filter:
`if text_search: filtered = filtered[filtered['notes'].astype(str).str.contains(text_search, case=False, na=False)]` —
an empty search string is falsy, so the filter is skipped. -/
def textSearchFilter (term : String) (rs : List ViewRow) : List ViewRow :=
  if term = "" then rs
  else rs.filter (fun r => containsCI (astypeStr r.notes) term)

/-- The dashboard timeframe selectbox. -/
inductive Timeframe where
  | last30
  | last90
  | ytd
  | allTime
  | custom (startD endD : Date)
deriving DecidableEq, Repr

/-- `df['date'].max()` (the empty-store default is irrelevant: the
dashboard short-circuits on `df.empty`). -/
def maxDateOf (rs : List ViewRow) : Date :=
  match rs with
  | [] => ⟨1970, 1, 1⟩
  | r :: t => t.foldl (fun acc x => if Date.lt acc x.date then x.date else acc) r.date

/-- `df['date'].min()`. -/
def minDateOf (rs : List ViewRow) : Date :=
  match rs with
  | [] => ⟨1970, 1, 1⟩
  | r :: t => t.foldl (fun acc x => if Date.lt x.date acc then x.date else acc) r.date

/-- Dashboard timeframe resolution (app.py lines 86-99), in day numbers:
`end = pd.to_datetime(df['date'].max())` for the named timeframes, then
`start = end - pd.Timedelta(days=30)` / `days=90`, `start = Timestamp(end.year, 1, 1)`
for "Year to date", `start = df['date'].min()` for "All time"; a custom
range takes both bounds from the user. -/
def resolveTimeframe (tf : Timeframe) (rs : List ViewRow) : Int × Int :=
  match tf with
  | Timeframe.custom s e => ((s.toDays : Int), (e.toDays : Int))
  | Timeframe.last30 => (((maxDateOf rs).toDays : Int) - 30, ((maxDateOf rs).toDays : Int))
  | Timeframe.last90 => (((maxDateOf rs).toDays : Int) - 90, ((maxDateOf rs).toDays : Int))
  | Timeframe.ytd =>
      (((Date.mk (maxDateOf rs).year 1 1).toDays : Int), ((maxDateOf rs).toDays : Int))
  | Timeframe.allTime => (((minDateOf rs).toDays : Int), ((maxDateOf rs).toDays : Int))

/-- `df_filtered = df[(df['date'] >= start) & (df['date'] <= end)]`. -/
def timeframeFiltered (tf : Timeframe) (rs : List ViewRow) : List ViewRow :=
  rs.filter (fun r =>
    decide ((resolveTimeframe tf rs).1 ≤ (r.date.toDays : Int)) &&
      decide ((r.date.toDays : Int) ≤ (resolveTimeframe tf rs).2))

/-- The "Last 30 days" summary metric (app.py line 103):
`df[(df['date'] >= end - pd.Timedelta(days=30)) & (df['date'] <= end)]['amount'].sum()`,
computed over the full `df` but relative to the resolved `end` of the
currently selected timeframe. -/
def last30Metric (tf : Timeframe) (rs : List ViewRow) : ℚ :=
  sumAmounts (rs.filter (fun r =>
    decide ((resolveTimeframe tf rs).2 - 30 ≤ (r.date.toDays : Int)) &&
      decide ((r.date.toDays : Int) ≤ (resolveTimeframe tf rs).2)))

/-- Linear index of a calendar month, so that consecutive months have
consecutive indices. -/
def monthIdx (d : Date) : Nat := d.year * 12 + (d.month - 1)

/-- Sum of amounts falling in the calendar month of index `i`. -/
def monthSum (i : Nat) (rs : List ViewRow) : ℚ :=
  sumAmounts (rs.filter (fun r => monthIdx r.date == i))

/-- Minimum of a nonempty list of naturals (0 for `[]`, unused). -/
def natMinOf (l : List Nat) : Nat :=
  match l with
  | [] => 0
  | x :: t => t.foldl Nat.min x

/-- Maximum of a nonempty list of naturals (0 for `[]`, unused). -/
def natMaxOf (l : List Nat) : Nat :=
  match l with
  | [] => 0
  | x :: t => t.foldl Nat.max x

/-- `df_filtered.set_index('date').resample('M')['amount'].sum()`:
pandas month-end resampling emits one bucket for every calendar month
between the minimum and maximum observed date, an empty month summing to
zero.  Buckets are identified by their month index (the chart labels
them `'%Y-%m'`). -/
def resampleMonthly (rs : List ViewRow) : List (Nat × ℚ) :=
  match rs with
  | [] => []
  | _ :: _ =>
    let lo := natMinOf (rs.map (fun r => monthIdx r.date))
    let hi := natMaxOf (rs.map (fun r => monthIdx r.date))
    (List.range (hi - lo + 1)).map (fun k => (lo + k, monthSum (lo + k) rs))

/-- Day numbers of Mondays satisfy `n % 7 = 5` (0000-03-01, day 0 of
`Date.toDays`, was a Wednesday; 146097 days per 400-year era is a
multiple of 7). -/
def nextMonday (n : Nat) : Nat := n + (12 - n % 7) % 7

/-- The `'W-MON'` bucket of a record: pandas anchored-weekly resampling
is right-closed and right-labelled, so each bin spans Tuesday through
Monday and a record is labelled by the first Monday on or after its
date. -/
def weekBucket (d : Date) : Nat := nextMonday d.toDays

/-- Sum of amounts falling in the weekly bucket labelled by day `w`. -/
def weekSum (w : Nat) (rs : List ViewRow) : ℚ :=
  sumAmounts (rs.filter (fun r => weekBucket r.date == w))

/-- `df_filtered.set_index('date').resample('W-MON')['amount'].sum()`:
one bucket for every Monday label from the first record's bucket to the
last, step seven days, empty weeks summing to zero. -/
def resampleWeekly (rs : List ViewRow) : List (Nat × ℚ) :=
  match rs with
  | [] => []
  | _ :: _ =>
    let lo := natMinOf (rs.map (fun r => weekBucket r.date))
    let hi := natMaxOf (rs.map (fun r => weekBucket r.date))
    (List.range ((hi - lo) / 7 + 1)).map (fun k => (lo + 7 * k, weekSum (lo + 7 * k) rs))

/-- `weekly.tail(12)`: the weekly chart plots only the most recent
twelve buckets. -/
def weeklyChart (rs : List ViewRow) : List (Nat × ℚ) :=
  (resampleWeekly rs).drop ((resampleWeekly rs).length - 12)

/-- The Add-Expense submit handler (app.py lines 39-46): amounts not
strictly positive are rejected with the user-visible error before
`db.add_expense` is reached; otherwise the record is inserted.  Returns
the new store and the error message, if any. -/
def submitAddExpense (amount : ℚ) (category : String) (d : Date) (notes : String)
    (now : String) (s : DBState) : DBState × Option String :=
  if amount ≤ 0 then (s, some "Enter an amount > 0")
  else (add_expense amount category (Sum.inl d) (some notes) now s, none)

/-- The month indices of a row list (the keys `resample('M')` buckets
by). -/
def monthsOf (rs : List ViewRow) : List Nat :=
  rs.map (fun r => monthIdx r.date)

/-- The weekly bucket labels of a row list (the keys `resample('W-MON')`
buckets by). -/
def weeksOf (rs : List ViewRow) : List Nat :=
  rs.map (fun r => weekBucket r.date)

/-- Modelled from the spec: the label a "week starting Monday" bucketing
would assign — the last Monday on or before the given day.  (The code's
`resample('W-MON')` instead labels by the first Monday on or after the
day; this definition exists only to compare the two conventions.) -/
def mondayStartOfWeek (n : Nat) : Nat := n - (n % 7 + 2) % 7

/-- Fixture store for the fetch-ordering claim: two rows on the same
date with distinct creation timestamps. -/
def c4store : DBState :=
  ⟨[⟨1, 50, "Food", "2024-01-15", some "lunch", "2024-01-15 10:00:00"⟩,
    ⟨2, 20, "Food", "2024-01-15", none, "2024-01-15 11:00:00"⟩], 3⟩

/-- Fixture rows for the dashboard-metric claims: one January record and
one June record. -/
def c2rows : List ViewRow :=
  [⟨1, 10, "Food", ⟨2024, 1, 15⟩, none, "2024-01-15 10:00:00"⟩,
   ⟨2, 20, "Travel", ⟨2024, 6, 15⟩, none, "2024-06-15 10:00:00"⟩]

/-- Fixture row with null notes. -/
def c3row : ViewRow :=
  ⟨1, 10, "Food", ⟨2024, 1, 2⟩, none, "2024-01-02 10:00:00"⟩

/-- Fixture row for the filter claims. -/
def c1row : ViewRow :=
  ⟨1, 10, "Food", ⟨2024, 1, 15⟩, some "lunch", "2024-01-15 10:00:00"⟩

/-- Fixture rows for the resampling claims: a Tuesday record and a
record on the following Monday. -/
def c7rows : List ViewRow :=
  [⟨1, 10, "Food", ⟨2024, 1, 2⟩, some "a", "2024-01-02 10:00:00"⟩,
   ⟨2, 20, "Food", ⟨2024, 1, 8⟩, some "b", "2024-01-08 10:00:00"⟩]

/-! ## Order of ISO date strings

`ORDER BY date DESC` compares the `TEXT` column lexicographically; the
lemmas below show that on the `strftime("%Y-%m-%d")` renderings of valid
dates this coincides with chronological order. -/

theorem consLtIff {x y : Char} {xs ys : List Char} :
    List.lt (x :: xs) (y :: ys) ↔ (x < y ∨ (¬ x < y ∧ ¬ y < x ∧ List.lt xs ys)) := by
  constructor
  · intro h
    cases h with
    | head _ _ h => exact Or.inl h
    | tail h1 h2 h3 => exact Or.inr ⟨h1, h2, h3⟩
  · intro h
    rcases h with h | ⟨h1, h2, h3⟩
    · exact List.lt.head _ _ h
    · exact List.lt.tail h1 h2 h3

theorem charEqOfNotLt {x y : Char} (h1 : ¬ x < y) (h2 : ¬ y < x) : x = y :=
  le_antisymm (le_of_not_lt h2) (le_of_not_lt h1)

theorem consLtIffEq {x y : Char} {xs ys : List Char} :
    List.lt (x :: xs) (y :: ys) ↔ (x < y ∨ (x = y ∧ List.lt xs ys)) := by
  rw [consLtIff]
  constructor
  · rintro (h | ⟨h1, h2, h3⟩)
    · exact Or.inl h
    · exact Or.inr ⟨charEqOfNotLt h1 h2, h3⟩
  · rintro (h | ⟨rfl, h3⟩)
    · exact Or.inl h
    · exact Or.inr ⟨lt_irrefl x, lt_irrefl x, h3⟩

theorem nilNotLtNil : ¬ List.lt ([] : List Char) [] := nofun

theorem appendLtIff {xs ys : List Char} (h : xs.length = ys.length) {as bs : List Char} :
    List.lt (xs ++ as) (ys ++ bs) ↔ (List.lt xs ys ∨ (xs = ys ∧ List.lt as bs)) := by
  induction xs generalizing ys with
  | nil =>
    cases ys with
    | nil =>
      constructor
      · intro h'
        exact Or.inr ⟨rfl, h'⟩
      · rintro (h' | ⟨-, h'⟩)
        · exact absurd h' nilNotLtNil
        · exact h'
    | cons y ys => simp at h
  | cons x xs ih =>
    cases ys with
    | nil => simp at h
    | cons y ys =>
      simp only [List.cons_append]
      rw [consLtIffEq, ih (by simpa using h), consLtIffEq]
      simp only [List.cons.injEq]
      tauto

theorem digitCharLtIff : ∀ a, a < 10 → ∀ b, b < 10 →
    (digitChar a < digitChar b ↔ a < b) := by decide

theorem digitCharEqIff : ∀ a, a < 10 → ∀ b, b < 10 →
    (digitChar a = digitChar b ↔ a = b) := by decide

theorem pad2LtIff {a b : Nat} (ha : a < 100) (hb : b < 100) :
    List.lt (pad2 a) (pad2 b) ↔ a < b := by
  unfold pad2
  simp only [consLtIffEq]
  rw [digitCharLtIff _ (by omega) _ (by omega), digitCharEqIff _ (by omega) _ (by omega),
    digitCharLtIff _ (by omega) _ (by omega), digitCharEqIff _ (by omega) _ (by omega)]
  have hnil : List.lt ([] : List Char) [] ↔ False := ⟨fun h' => nilNotLtNil h', False.elim⟩
  rw [hnil]
  simp only [and_false, or_false]
  omega

theorem pad2EqIff {a b : Nat} (ha : a < 100) (hb : b < 100) :
    pad2 a = pad2 b ↔ a = b := by
  unfold pad2
  simp only [List.cons.injEq, and_true]
  rw [digitCharEqIff _ (by omega) _ (by omega), digitCharEqIff _ (by omega) _ (by omega)]
  omega

theorem pad4LtIff {a b : Nat} (ha : a < 10000) (hb : b < 10000) :
    List.lt (pad4 a) (pad4 b) ↔ a < b := by
  unfold pad4
  rw [appendLtIff (by simp [pad2]),
    pad2LtIff (by omega) (by omega), pad2EqIff (by omega) (by omega),
    pad2LtIff (by omega) (by omega)]
  omega

theorem pad4EqIff {a b : Nat} (ha : a < 10000) (hb : b < 10000) :
    pad4 a = pad4 b ↔ a = b := by
  unfold pad4
  constructor
  · intro h
    rcases List.append_inj h (by simp [pad2]) with ⟨h1, h2⟩
    have e1 := (pad2EqIff (by omega) (by omega)).mp h1
    have e2 := (pad2EqIff (by omega) (by omega)).mp h2
    omega
  · intro h
    rw [h]

theorem stringMkLtIff (l₁ l₂ : List Char) :
    String.mk l₁ < String.mk l₂ ↔ List.lt l₁ l₂ := by
  rw [String.lt_iff_toList_lt]
  exact (List.lt_iff_lex_lt l₁ l₂).symm

/-- On valid dates, lexicographic order of the stored ISO strings is
chronological order. -/
theorem toIsoLtIff {d₁ d₂ : Date} (h₁ : d₁.valid) (h₂ : d₂.valid) :
    d₁.toISO < d₂.toISO ↔ Date.lt d₁ d₂ := by
  obtain ⟨hy1, hy1u, hm1, hm1u, hd1, hd1u⟩ := h₁
  obtain ⟨hy2, hy2u, hm2, hm2u, hd2, hd2u⟩ := h₂
  unfold Date.toISO
  rw [stringMkLtIff, appendLtIff (by simp [pad4, pad2]), consLtIffEq,
    appendLtIff (by simp [pad2]), consLtIffEq,
    pad4LtIff (by omega) (by omega), pad4EqIff (by omega) (by omega),
    pad2LtIff (by omega) (by omega), pad2EqIff (by omega) (by omega),
    pad2LtIff (by omega) (by omega)]
  simp only [lt_self_iff_false, false_or, true_and]
  unfold Date.lt
  omega

/-- On valid dates, the stored ISO string determines the date. -/
theorem toIsoEqIff {d₁ d₂ : Date} (h₁ : d₁.valid) (h₂ : d₂.valid) :
    d₁.toISO = d₂.toISO ↔ d₁ = d₂ := by
  constructor
  · intro h
    by_contra hne
    have htri : Date.lt d₁ d₂ ∨ Date.lt d₂ d₁ := by
      obtain ⟨y1, m1, a1⟩ := d₁
      obtain ⟨y2, m2, a2⟩ := d₂
      simp only [Date.mk.injEq] at hne
      unfold Date.lt
      dsimp only
      omega
    rcases htri with hl | hl
    · exact absurd h (ne_of_lt ((toIsoLtIff h₁ h₂).mpr hl))
    · exact absurd h.symm (ne_of_lt ((toIsoLtIff h₂ h₁).mpr hl))
  · intro h
    rw [h]

/-! ## Substring search -/

theorem hasSubInfix (h n : List Char) : hasSub h n = true ↔ n <:+: h := by
  induction h with
  | nil =>
    rw [show hasSub [] n = n.isEmpty from rfl, List.isEmpty_iff, List.infix_nil]
  | cons c t ih =>
    rw [show hasSub (c :: t) n = (n.isPrefixOf (c :: t) || hasSub t n) from rfl,
      Bool.or_eq_true, ih, List.isPrefixOf_iff_prefix]
    exact ( List.infix_cons_iff).symm

theorem hasSubExists (h n : List Char) :
    hasSub h n = true ↔ ∃ pre post, pre ++ n ++ post = h := by
  rw [hasSubInfix]
  exact Iff.rfl

/-! ## The `ORDER BY` comparator -/

theorem rowLeIff (a b : DBRow) : rowLe a b = true ↔
    (b.dateStr < a.dateStr ∨ (a.dateStr = b.dateStr ∧ b.created_at ≤ a.created_at)) := by
  unfold rowLe
  simp only [Bool.or_eq_true, Bool.and_eq_true, decide_eq_true_eq]

theorem rowLeTotal (a b : DBRow) : (rowLe a b || rowLe b a) = true := by
  rw [Bool.or_eq_true, rowLeIff, rowLeIff]
  rcases lt_trichotomy a.dateStr b.dateStr with h | h | h
  · exact Or.inr (Or.inl h)
  · rcases le_total a.created_at b.created_at with hc | hc
    · exact Or.inr (Or.inr ⟨h.symm, hc⟩)
    · exact Or.inl (Or.inr ⟨h, hc⟩)
  · exact Or.inl (Or.inl h)

theorem rowLeTrans (a b c : DBRow) :
    rowLe a b = true → rowLe b c = true → rowLe a c = true := by
  intro hab hbc
  rw [rowLeIff] at hab hbc ⊢
  rcases hab with h1 | ⟨h1e, h1c⟩
  · rcases hbc with h2 | ⟨h2e, h2c⟩
    · exact Or.inl (lt_trans h2 h1)
    · refine Or.inl ?_
      rw [← h2e]
      exact h1
  · rcases hbc with h2 | ⟨h2e, h2c⟩
    · refine Or.inl ?_
      rw [h1e]
      exact h2
    · exact Or.inr ⟨h1e.trans h2e, le_trans h2c h1c⟩

/-! ## Chronological order utilities -/

theorem dateLtOrGe (a b : Date) : Date.lt a b ∨ Date.le b a := by
  obtain ⟨y1, m1, d1⟩ := a
  obtain ⟨y2, m2, d2⟩ := b
  simp only [Date.lt, Date.le, Date.mk.injEq]
  omega

theorem dateLeTrans {a b c : Date} (h1 : Date.le a b) (h2 : Date.le b c) : Date.le a c := by
  obtain ⟨y1, m1, d1⟩ := a
  obtain ⟨y2, m2, d2⟩ := b
  obtain ⟨y3, m3, d3⟩ := c
  simp only [Date.lt, Date.le, Date.mk.injEq] at h1 h2 ⊢
  omega

theorem dateLtLe {a b : Date} (h : Date.lt a b) : Date.le a b := Or.inl h

theorem dateLeRefl (a : Date) : Date.le a a := Or.inr rfl

/-! ## Fold characterizations of `min`/`max` -/

theorem foldlNatMaxSpec (t : List Nat) (a : Nat) :
    (t.foldl Nat.max a = a ∨ t.foldl Nat.max a ∈ t) ∧
      a ≤ t.foldl Nat.max a ∧ ∀ x ∈ t, x ≤ t.foldl Nat.max a := by
  induction t generalizing a with
  | nil => simp
  | cons x t ih =>
    obtain ⟨hm, hle, hall⟩ := ih (Nat.max a x)
    refine ⟨?_, ?_, ?_⟩
    · rcases hm with hm | hm
      · rw [List.foldl_cons, hm]
        have hchoice : Nat.max a x = a ∨ Nat.max a x = x := by
          rcases Nat.le_total a x with hx | hx
          · exact Or.inr (Nat.max_eq_right hx)
          · exact Or.inl (Nat.max_eq_left hx)
        rcases hchoice with hc | hc
        · exact Or.inl hc
        · exact Or.inr (by rw [hc]; exact List.mem_cons_self _ _)
      · exact Or.inr (List.mem_cons_of_mem _ hm)
    · exact le_trans (Nat.le_max_left a x) hle
    · intro y hy
      rcases List.mem_cons.mp hy with rfl | hy
      · exact le_trans (Nat.le_max_right a y) hle
      · exact hall y hy

theorem foldlNatMinSpec (t : List Nat) (a : Nat) :
    (t.foldl Nat.min a = a ∨ t.foldl Nat.min a ∈ t) ∧
      t.foldl Nat.min a ≤ a ∧ ∀ x ∈ t, t.foldl Nat.min a ≤ x := by
  induction t generalizing a with
  | nil => simp
  | cons x t ih =>
    obtain ⟨hm, hle, hall⟩ := ih (Nat.min a x)
    refine ⟨?_, ?_, ?_⟩
    · rcases hm with hm | hm
      · rw [List.foldl_cons, hm]
        have hchoice : Nat.min a x = a ∨ Nat.min a x = x := by
          rcases Nat.le_total a x with hx | hx
          · exact Or.inl (Nat.min_eq_left hx)
          · exact Or.inr (Nat.min_eq_right hx)
        rcases hchoice with hc | hc
        · exact Or.inl hc
        · exact Or.inr (by rw [hc]; exact List.mem_cons_self _ _)
      · exact Or.inr (List.mem_cons_of_mem _ hm)
    · exact le_trans hle (Nat.min_le_left a x)
    · intro y hy
      rcases List.mem_cons.mp hy with rfl | hy
      · exact le_trans hle (Nat.min_le_right a y)
      · exact hall y hy

theorem natMaxOfSpec (l : List Nat) (h : l ≠ []) :
    natMaxOf l ∈ l ∧ ∀ x ∈ l, x ≤ natMaxOf l := by
  match l with
  | [] => exact absurd rfl h
  | x :: t =>
    obtain ⟨hm, hle, hall⟩ := foldlNatMaxSpec t x
    refine ⟨?_, ?_⟩
    · rcases hm with hm | hm
      · rw [show natMaxOf (x :: t) = t.foldl Nat.max x from rfl, hm]
        exact List.mem_cons_self _ _
      · exact List.mem_cons_of_mem _ hm
    · intro y hy
      rcases List.mem_cons.mp hy with rfl | hy
      · exact hle
      · exact hall y hy

theorem natMinOfSpec (l : List Nat) (h : l ≠ []) :
    natMinOf l ∈ l ∧ ∀ x ∈ l, natMinOf l ≤ x := by
  match l with
  | [] => exact absurd rfl h
  | x :: t =>
    obtain ⟨hm, hle, hall⟩ := foldlNatMinSpec t x
    refine ⟨?_, ?_⟩
    · rcases hm with hm | hm
      · rw [show natMinOf (x :: t) = t.foldl Nat.min x from rfl, hm]
        exact List.mem_cons_self _ _
      · exact List.mem_cons_of_mem _ hm
    · intro y hy
      rcases List.mem_cons.mp hy with rfl | hy
      · exact hle
      · exact hall y hy

theorem foldlMaxDateSpec (t : List ViewRow) (a : Date) :
    (t.foldl (fun acc x => if Date.lt acc x.date then x.date else acc) a = a ∨
        t.foldl (fun acc x => if Date.lt acc x.date then x.date else acc) a ∈
          t.map (fun r => r.date)) ∧
      Date.le a (t.foldl (fun acc x => if Date.lt acc x.date then x.date else acc) a) ∧
      ∀ r ∈ t, Date.le r.date
        (t.foldl (fun acc x => if Date.lt acc x.date then x.date else acc) a) := by
  induction t generalizing a with
  | nil => exact ⟨Or.inl rfl, dateLeRefl a, by simp⟩
  | cons x t ih =>
    obtain ⟨hm, hle, hall⟩ :=
      ih (if Date.lt a x.date then x.date else a)
    have hstep : Date.le a (if Date.lt a x.date then x.date else a) := by
      by_cases hc : Date.lt a x.date
      · rw [if_pos hc]
        exact dateLtLe hc
      · rw [if_neg hc]
        exact dateLeRefl a
    have hstepx : Date.le x.date (if Date.lt a x.date then x.date else a) := by
      by_cases hc : Date.lt a x.date
      · rw [if_pos hc]
        exact dateLeRefl _
      · rw [if_neg hc]
        rcases dateLtOrGe a x.date with hd | hd
        · exact absurd hd hc
        · exact hd
    refine ⟨?_, ?_, ?_⟩
    · rcases hm with hm | hm
      · rw [List.foldl_cons, hm]
        by_cases hc : Date.lt a x.date
        · rw [if_pos hc]
          exact Or.inr (by simp)
        · rw [if_neg hc]
          exact Or.inl rfl
      · exact Or.inr (List.mem_cons_of_mem _ hm)
    · exact dateLeTrans hstep hle
    · intro r hr
      rcases List.mem_cons.mp hr with rfl | hr
      · exact dateLeTrans hstepx hle
      · exact hall r hr

theorem foldlMinDateSpec (t : List ViewRow) (a : Date) :
    (t.foldl (fun acc x => if Date.lt x.date acc then x.date else acc) a = a ∨
        t.foldl (fun acc x => if Date.lt x.date acc then x.date else acc) a ∈
          t.map (fun r => r.date)) ∧
      Date.le (t.foldl (fun acc x => if Date.lt x.date acc then x.date else acc) a) a ∧
      ∀ r ∈ t, Date.le
        (t.foldl (fun acc x => if Date.lt x.date acc then x.date else acc) a) r.date := by
  induction t generalizing a with
  | nil => exact ⟨Or.inl rfl, dateLeRefl a, by simp⟩
  | cons x t ih =>
    obtain ⟨hm, hle, hall⟩ :=
      ih (if Date.lt x.date a then x.date else a)
    have hstep : Date.le (if Date.lt x.date a then x.date else a) a := by
      by_cases hc : Date.lt x.date a
      · rw [if_pos hc]
        exact dateLtLe hc
      · rw [if_neg hc]
        exact dateLeRefl a
    have hstepx : Date.le (if Date.lt x.date a then x.date else a) x.date := by
      by_cases hc : Date.lt x.date a
      · rw [if_pos hc]
        exact dateLeRefl _
      · rw [if_neg hc]
        rcases dateLtOrGe x.date a with hd | hd
        · exact absurd hd hc
        · exact hd
    refine ⟨?_, ?_, ?_⟩
    · rcases hm with hm | hm
      · rw [List.foldl_cons, hm]
        by_cases hc : Date.lt x.date a
        · rw [if_pos hc]
          exact Or.inr (by simp)
        · rw [if_neg hc]
          exact Or.inl rfl
      · exact Or.inr (List.mem_cons_of_mem _ hm)
    · exact dateLeTrans hle hstep
    · intro r hr
      rcases List.mem_cons.mp hr with rfl | hr
      · exact dateLeTrans hle hstepx
      · exact hall r hr

theorem maxDateOfSpec (rs : List ViewRow) (h : rs ≠ []) :
    maxDateOf rs ∈ rs.map (fun r => r.date) ∧ ∀ r ∈ rs, Date.le r.date (maxDateOf rs) := by
  match rs with
  | [] => exact absurd rfl h
  | x :: t =>
    obtain ⟨hm, hle, hall⟩ := foldlMaxDateSpec t x.date
    refine ⟨?_, ?_⟩
    · rcases hm with hm | hm
      · rw [show maxDateOf (x :: t) =
          t.foldl (fun acc y => if Date.lt acc y.date then y.date else acc) x.date from rfl, hm]
        simp
      · rw [show maxDateOf (x :: t) =
          t.foldl (fun acc y => if Date.lt acc y.date then y.date else acc) x.date from rfl]
        rcases List.mem_map.mp hm with ⟨r, hr, hreq⟩
        exact List.mem_map.mpr ⟨r, List.mem_cons_of_mem _ hr, hreq⟩
    · intro r hr
      rcases List.mem_cons.mp hr with rfl | hr
      · exact hle
      · exact hall r hr

theorem minDateOfSpec (rs : List ViewRow) (h : rs ≠ []) :
    minDateOf rs ∈ rs.map (fun r => r.date) ∧ ∀ r ∈ rs, Date.le (minDateOf rs) r.date := by
  match rs with
  | [] => exact absurd rfl h
  | x :: t =>
    obtain ⟨hm, hle, hall⟩ := foldlMinDateSpec t x.date
    refine ⟨?_, ?_⟩
    · rcases hm with hm | hm
      · rw [show minDateOf (x :: t) =
          t.foldl (fun acc y => if Date.lt y.date acc then y.date else acc) x.date from rfl, hm]
        simp
      · rw [show minDateOf (x :: t) =
          t.foldl (fun acc y => if Date.lt y.date acc then y.date else acc) x.date from rfl]
        rcases List.mem_map.mp hm with ⟨r, hr, hreq⟩
        exact List.mem_map.mpr ⟨r, List.mem_cons_of_mem _ hr, hreq⟩
    · intro r hr
      rcases List.mem_cons.mp hr with rfl | hr
      · exact hle
      · exact hall r hr

/-! ## Resampling helpers -/

theorem nextMondayMod (n : Nat) : nextMonday n % 7 = 5 := by
  unfold nextMonday
  omega

theorem nextMondayGe (n : Nat) : n ≤ nextMonday n := by
  unfold nextMonday
  omega

theorem nextMondayLt (n : Nat) : nextMonday n < n + 7 := by
  unfold nextMonday
  omega

theorem monthIdxMono {d₁ d₂ : Date} (h₁ : d₁.valid) (h₂ : d₂.valid)
    (h : Date.le d₁ d₂) : monthIdx d₁ ≤ monthIdx d₂ := by
  obtain ⟨y1, m1, a1⟩ := d₁
  obtain ⟨y2, m2, a2⟩ := d₂
  obtain ⟨hv1, hv2, hv3, hv4, hv5, hv6⟩ := h₁
  obtain ⟨hw1, hw2, hw3, hw4, hw5, hw6⟩ := h₂
  simp only [Date.le, Date.lt, Date.mk.injEq] at h
  unfold monthIdx
  dsimp only at *
  omega

theorem memResampleMonthly (r0 : ViewRow) (t0 : List ViewRow) (i : Nat) (v : ℚ) :
    (i, v) ∈ resampleMonthly (r0 :: t0) ↔
      ∃ k, k < natMaxOf (monthsOf (r0 :: t0)) - natMinOf (monthsOf (r0 :: t0)) + 1 ∧
        i = natMinOf (monthsOf (r0 :: t0)) + k ∧ v = monthSum i (r0 :: t0) := by
  rw [show resampleMonthly (r0 :: t0) =
    (List.range (natMaxOf (monthsOf (r0 :: t0)) - natMinOf (monthsOf (r0 :: t0)) + 1)).map
      (fun k => (natMinOf (monthsOf (r0 :: t0)) + k,
        monthSum (natMinOf (monthsOf (r0 :: t0)) + k) (r0 :: t0))) from rfl]
  rw [List.mem_map]
  constructor
  · rintro ⟨k, hk, hkeq⟩
    rw [List.mem_range] at hk
    rw [Prod.mk.injEq] at hkeq
    obtain ⟨hi, hv⟩ := hkeq
    exact ⟨k, hk, hi.symm, by rw [← hv, hi]⟩
  · rintro ⟨k, hk, hi, hv⟩
    refine ⟨k, List.mem_range.mpr hk, ?_⟩
    rw [Prod.mk.injEq]
    exact ⟨hi.symm, by rw [hv, hi]⟩

theorem memResampleWeekly (r0 : ViewRow) (t0 : List ViewRow) (w : Nat) (v : ℚ) :
    (w, v) ∈ resampleWeekly (r0 :: t0) ↔
      ∃ k, k < (natMaxOf (weeksOf (r0 :: t0)) - natMinOf (weeksOf (r0 :: t0))) / 7 + 1 ∧
        w = natMinOf (weeksOf (r0 :: t0)) + 7 * k ∧ v = weekSum w (r0 :: t0) := by
  rw [show resampleWeekly (r0 :: t0) =
    (List.range ((natMaxOf (weeksOf (r0 :: t0)) - natMinOf (weeksOf (r0 :: t0))) / 7 + 1)).map
      (fun k => (natMinOf (weeksOf (r0 :: t0)) + 7 * k,
        weekSum (natMinOf (weeksOf (r0 :: t0)) + 7 * k) (r0 :: t0))) from rfl]
  rw [List.mem_map]
  constructor
  · rintro ⟨k, hk, hkeq⟩
    rw [List.mem_range] at hk
    rw [Prod.mk.injEq] at hkeq
    obtain ⟨hi, hv⟩ := hkeq
    exact ⟨k, hk, hi.symm, by rw [← hv, hi]⟩
  · rintro ⟨k, hk, hi, hv⟩
    refine ⟨k, List.mem_range.mpr hk, ?_⟩
    rw [Prod.mk.injEq]
    exact ⟨hi.symm, by rw [hv, hi]⟩

theorem sumAmountsNilOfNone (i : Nat) (rs : List ViewRow)
    (h : ∀ r ∈ rs, monthIdx r.date ≠ i) : monthSum i rs = 0 := by
  unfold monthSum
  rw [show rs.filter (fun r => monthIdx r.date == i) = [] from ?_]
  · rfl
  · rw [List.filter_eq_nil_iff]
    intro r hr
    simp only [beq_iff_eq]
    exact h r hr

/-! ## Claims -/

/-- C1 (corrected): in the View & Export category filter, an *empty*
selection leaves the record set untouched (Python's falsy-list check
skips the filter), rather than retaining no records; a non-empty
selection retains exactly the records whose category is a member of the
selection. -/
theorem claim_C1_category_filter (sel : List String) (rs : List ViewRow) :
    (sel = [] → categoryFilter sel rs = rs) ∧
    (sel ≠ [] → ∀ r : ViewRow, r ∈ categoryFilter sel rs ↔ (r ∈ rs ∧ r.category ∈ sel)) := by
  constructor
  · intro h
    rw [h]
    rfl
  · intro h r
    rw [show categoryFilter sel rs = rs.filter (fun r => sel.contains r.category) from by
      unfold categoryFilter
      rw [if_neg (fun hc => h (List.isEmpty_iff.mp hc))]]
    rw [List.mem_filter]
    constructor
    · rintro ⟨h1, h2⟩
      exact ⟨h1, List.elem_iff.mp h2⟩
    · rintro ⟨h1, h2⟩
      exact ⟨h1, List.elem_iff.mpr h2⟩

/-- C1 counterexample: with an empty selection the code retains the
record, contradicting the claimed "no records match". -/
theorem claim_C1_counterexample : categoryFilter [] [c1row] = [c1row] := by decide

/-- C1 witness: the corrected statement applied at concrete inputs. -/
theorem claim_C1_witness :
    categoryFilter [] [c1row] = [c1row] ∧
      (c1row ∈ categoryFilter ["Food"] [c1row] ↔ (c1row ∈ [c1row] ∧ c1row.category ∈ ["Food"])) :=
  ⟨(claim_C1_category_filter [] [c1row]).1 rfl,
    (claim_C1_category_filter ["Food"] [c1row]).2 (by decide) c1row⟩

/-- C5 (confirmed): the View & Export date-range filter retains exactly
the records with `start <= date <= end`, both bounds inclusive; in
particular a record dated exactly `start` or exactly `end` is
retained. -/
theorem claim_C5_date_range_filter (startD endD : Date) (rs : List ViewRow) :
    (∀ r : ViewRow, r ∈ dateRangeFilter startD endD rs ↔
      (r ∈ rs ∧ Date.le startD r.date ∧ Date.le r.date endD)) ∧
    (Date.le startD endD → ∀ r ∈ rs, (r.date = startD ∨ r.date = endD) →
      r ∈ dateRangeFilter startD endD rs) := by
  have hmem : ∀ r : ViewRow, r ∈ dateRangeFilter startD endD rs ↔
      (r ∈ rs ∧ Date.le startD r.date ∧ Date.le r.date endD) := by
    intro r
    unfold dateRangeFilter
    rw [List.mem_filter]
    simp only [Bool.and_eq_true, decide_eq_true_eq]
  refine ⟨hmem, ?_⟩
  intro hse r hr hd
  refine (hmem r).mpr ⟨hr, ?_, ?_⟩
  · rcases hd with hd | hd
    · rw [hd]
      exact dateLeRefl _
    · rw [hd]
      exact hse
  · rcases hd with hd | hd
    · rw [hd]
      exact hse
    · rw [hd]
      exact dateLeRefl _

/-- C5 witness: a record dated exactly on the range boundary is
retained. -/
theorem claim_C5_witness :
    c1row ∈ dateRangeFilter ⟨2024, 1, 15⟩ ⟨2024, 1, 31⟩ [c1row] :=
  (claim_C5_date_range_filter ⟨2024, 1, 15⟩ ⟨2024, 1, 31⟩ [c1row]).2 (by decide) c1row
    (by decide) (Or.inl rfl)

/-- C6 (confirmed): submitting the Add-Expense form with a non-positive
amount is rejected before storage: the store is returned unchanged (so
`db.add_expense` is never invoked and no record appears) and the
user-visible error message is surfaced. -/
theorem claim_C6_validation (amount : ℚ) (category : String) (d : Date) (notes : String)
    (now : String) (s : DBState) (h : amount ≤ 0) :
    submitAddExpense amount category d notes now s = (s, some "Enter an amount > 0") := by
  unfold submitAddExpense
  rw [if_pos h]

/-- C6 witness: amount `0` is rejected and the empty store stays
empty. -/
theorem claim_C6_witness :
    submitAddExpense 0 "Food" ⟨2024, 1, 15⟩ "" "2024-01-15 10:00:00" ⟨[], 1⟩ =
      (⟨[], 1⟩, some "Enter an amount > 0") :=
  claim_C6_validation 0 "Food" ⟨2024, 1, 15⟩ "" "2024-01-15 10:00:00" ⟨[], 1⟩ le_rfl

/-- C9 (confirmed): every sequence of storage operations (the interface
`Op` is exactly initialize, insert, unfiltered fetch, demo-batch insert)
leaves every previously stored row — all its fields, including its id —
in place, and never decreases the row count: the old row list is always
a prefix of the new one. -/
theorem claim_C9_append_only (ops : List Op) (s : DBState) :
    (applyOps ops s).rows.take s.rows.length = s.rows ∧
      s.rows.length ≤ (applyOps ops s).rows.length := by
  have hdemo : ∀ (draws : List DemoDraw) (now : String) (st : DBState),
      ∃ ext, (add_demo_data draws now st).rows = st.rows ++ ext := by
    intro draws
    induction draws with
    | nil => exact fun now st => ⟨[], by simp [add_demo_data, init_db]⟩
    | cons dr t ih =>
      intro now st
      obtain ⟨ext, hext⟩ := ih now
        (add_expense dr.amount (demoCategories.getD dr.catIdx "Other")
          (Sum.inr dr.drawnDate.toISO) (some "Demo expense") now st)
      refine ⟨⟨st.nextId, dr.amount, demoCategories.getD dr.catIdx "Other",
        dr.drawnDate.toISO, some "Demo expense", now⟩ :: ext, ?_⟩
      rw [show add_demo_data (dr :: t) now st =
        add_demo_data t now (add_expense dr.amount (demoCategories.getD dr.catIdx "Other")
          (Sum.inr dr.drawnDate.toISO) (some "Demo expense") now st) from rfl, hext]
      simp [add_expense, normalizeDate]
  have hop : ∀ (op : Op) (st : DBState), ∃ ext, (applyOp op st).rows = st.rows ++ ext := by
    intro op st
    cases op with
    | initDb => exact ⟨[], by simp [applyOp, init_db]⟩
    | addExpense a c d n t =>
      exact ⟨[⟨st.nextId, a, c, normalizeDate d, n, t⟩], rfl⟩
    | fetchExpenses => exact ⟨[], by simp [applyOp]⟩
    | addDemoData dr t => exact hdemo dr t st
  have hex : ∃ ext, (applyOps ops s).rows = s.rows ++ ext := by
    induction ops generalizing s with
    | nil => exact ⟨[], by simp [applyOps]⟩
    | cons op t ih =>
      obtain ⟨e2, he2⟩ := ih (applyOp op s)
      obtain ⟨e1, he1⟩ := hop op s
      refine ⟨e1 ++ e2, ?_⟩
      rw [show applyOps (op :: t) s = applyOps t (applyOp op s) from rfl, he2, he1,
        List.append_assoc]
  obtain ⟨ext, hext⟩ := hex
  rw [hext]
  exact ⟨List.take_left _ _, by simp⟩

/-- C10 (confirmed): a date-valued input to `add_expense` is stored as
its canonical `YYYY-MM-DD` rendering, and on valid dates the
lexicographic order (and equality) of those stored strings coincides
with the chronological order (and equality) of the dates — so sorting
the text column sorts chronologically. -/
theorem claim_C10_iso_normalization (amount : ℚ) (category : String) (notes : Option String)
    (now : String) (s : DBState) (d d₂ : Date) (h₁ : d.valid) (h₂ : d₂.valid) :
    (add_expense amount category (Sum.inl d) notes now s).rows =
      s.rows ++ [⟨s.nextId, amount, category, d.toISO, notes, now⟩] ∧
    (d.toISO < d₂.toISO ↔ Date.lt d d₂) ∧
    (d.toISO = d₂.toISO ↔ d = d₂) :=
  ⟨rfl, toIsoLtIff h₁ h₂, toIsoEqIff h₁ h₂⟩

/-- C10 witness: concrete normalization and order coincidence. -/
theorem claim_C10_witness :
    (add_expense 50 "Food" (Sum.inl ⟨2024, 1, 15⟩) (some "lunch") "ts" ⟨[], 1⟩).rows =
      [⟨1, 50, "Food", Date.toISO ⟨2024, 1, 15⟩, some "lunch", "ts"⟩] ∧
    (Date.toISO ⟨2024, 1, 15⟩ < Date.toISO ⟨2024, 2, 1⟩ ↔ Date.lt ⟨2024, 1, 15⟩ ⟨2024, 2, 1⟩) ∧
    (Date.toISO ⟨2024, 1, 15⟩ = Date.toISO ⟨2024, 2, 1⟩ ↔ (⟨2024, 1, 15⟩ : Date) = ⟨2024, 2, 1⟩) :=
  claim_C10_iso_normalization 50 "Food" (some "lunch") "ts" ⟨[], 1⟩ ⟨2024, 1, 15⟩ ⟨2024, 2, 1⟩
    (by decide) (by decide)

/-- C4 (confirmed): `fetch_expenses` returns a permutation of the stored
rows (in particular, an empty store yields an empty list rather than an
error), ordered so that whenever row `a` precedes row `b`, either `a`'s
date is strictly later, or the dates coincide and `a`'s creation
timestamp is at least `b`'s. -/
theorem claim_C4_fetch_order (s : DBState) :
    (fetch_expenses s).Perm s.rows ∧
    (s.rows = [] → fetch_expenses s = []) ∧
    (fetch_expenses s).Pairwise (fun a b =>
      ∀ da db : Date, da.valid → db.valid → a.dateStr = da.toISO → b.dateStr = db.toISO →
        (Date.lt db da ∨ (da = db ∧ b.created_at ≤ a.created_at))) := by
  refine ⟨List.mergeSort_perm s.rows rowLe, ?_, ?_⟩
  · intro h
    rw [show fetch_expenses s = s.rows.mergeSort rowLe from rfl, h]
    exact List.mergeSort_nil
  · have hs := List.sorted_mergeSort rowLeTrans rowLeTotal s.rows
    refine hs.imp ?_
    intro a b hab da db hda hdb ha hb
    rw [rowLeIff] at hab
    rcases hab with h | ⟨he, hc⟩
    · refine Or.inl ?_
      rw [ha, hb] at h
      exact (toIsoLtIff hdb hda).mp h
    · refine Or.inr ⟨?_, hc⟩
      rw [ha, hb] at he
      exact (toIsoEqIff hda hdb).mp he

/-- C4 witness: the fetched order of the concrete two-row store is a
permutation of the stored rows. -/
theorem claim_C4_witness : (fetch_expenses c4store).Perm c4store.rows :=
  (claim_C4_fetch_order c4store).1

/-- C8 (confirmed): for a non-empty record set, the dashboard's named
timeframes resolve `end` to the day number of the chronological maximum
date over all records (which the record set attains), and `start` to
`end - 30` days, `end - 90` days, January 1 of `end`'s year, or the
attained minimum date, respectively. -/
theorem claim_C8_timeframe_resolution (rs : List ViewRow) (h : rs ≠ []) :
    maxDateOf rs ∈ rs.map (fun r => r.date) ∧
    (∀ r ∈ rs, Date.le r.date (maxDateOf rs)) ∧
    minDateOf rs ∈ rs.map (fun r => r.date) ∧
    (∀ r ∈ rs, Date.le (minDateOf rs) r.date) ∧
    resolveTimeframe Timeframe.last30 rs =
      (((maxDateOf rs).toDays : Int) - 30, ((maxDateOf rs).toDays : Int)) ∧
    resolveTimeframe Timeframe.last90 rs =
      (((maxDateOf rs).toDays : Int) - 90, ((maxDateOf rs).toDays : Int)) ∧
    resolveTimeframe Timeframe.ytd rs =
      (((Date.mk (maxDateOf rs).year 1 1).toDays : Int), ((maxDateOf rs).toDays : Int)) ∧
    resolveTimeframe Timeframe.allTime rs =
      (((minDateOf rs).toDays : Int), ((maxDateOf rs).toDays : Int)) := by
  obtain ⟨hm1, hm2⟩ := maxDateOfSpec rs h
  obtain ⟨hn1, hn2⟩ := minDateOfSpec rs h
  exact ⟨hm1, hm2, hn1, hn2, rfl, rfl, rfl, rfl⟩

/-- C8 witness: the resolution applied to a concrete one-record set. -/
theorem claim_C8_witness :
    maxDateOf [c1row] ∈ [c1row].map (fun r => r.date) :=
  (claim_C8_timeframe_resolution [c1row] (by decide)).1

/-- C2 (corrected): for the four *named* timeframes the "Last 30 days"
metric equals the sum of amounts over the 30-day window ending at the
global maximum date across all records; for "Custom range" it is instead
computed relative to the user-chosen end date, so it is *not* independent
of the timeframe selection. -/
theorem claim_C2_last30_metric (rs : List ViewRow) (tf : Timeframe) (h : rs ≠ [])
    (hn : tf = Timeframe.last30 ∨ tf = Timeframe.last90 ∨ tf = Timeframe.ytd ∨
      tf = Timeframe.allTime) :
    last30Metric tf rs =
      sumAmounts (rs.filter (fun r =>
        decide (((maxDateOf rs).toDays : Int) - 30 ≤ (r.date.toDays : Int)) &&
          decide ((r.date.toDays : Int) ≤ ((maxDateOf rs).toDays : Int)))) := by
  rcases hn with rfl | rfl | rfl | rfl <;> rfl

/-- C2 counterexample: under "Custom range" with end January 31 the
metric counts the January record (10), while the 30-day window ending at
the global maximum date (June 15) contains only the June record (20). -/
theorem claim_C2_counterexample :
    last30Metric (Timeframe.custom ⟨2024, 1, 1⟩ ⟨2024, 1, 31⟩) c2rows ≠
      sumAmounts (c2rows.filter (fun r =>
        decide (((maxDateOf c2rows).toDays : Int) - 30 ≤ (r.date.toDays : Int)) &&
          decide ((r.date.toDays : Int) ≤ ((maxDateOf c2rows).toDays : Int)))) := by
  unfold last30Metric
  rw [show c2rows.filter (fun r =>
      decide ((resolveTimeframe (Timeframe.custom ⟨2024, 1, 1⟩ ⟨2024, 1, 31⟩) c2rows).2 - 30 ≤
        (r.date.toDays : Int)) &&
        decide ((r.date.toDays : Int) ≤
          (resolveTimeframe (Timeframe.custom ⟨2024, 1, 1⟩ ⟨2024, 1, 31⟩) c2rows).2)) =
      [⟨1, 10, "Food", ⟨2024, 1, 15⟩, none, "2024-01-15 10:00:00"⟩] from by decide]
  rw [show c2rows.filter (fun r =>
      decide (((maxDateOf c2rows).toDays : Int) - 30 ≤ (r.date.toDays : Int)) &&
        decide ((r.date.toDays : Int) ≤ ((maxDateOf c2rows).toDays : Int))) =
      [⟨2, 20, "Travel", ⟨2024, 6, 15⟩, none, "2024-06-15 10:00:00"⟩] from by decide]
  simp only [sumAmounts, List.map_cons, List.map_nil, List.sum_cons, List.sum_nil]
  norm_num

/-- C2 witness: the corrected statement at the "Last 30 days"
timeframe. -/
theorem claim_C2_witness :
    last30Metric Timeframe.last30 c2rows =
      sumAmounts (c2rows.filter (fun r =>
        decide (((maxDateOf c2rows).toDays : Int) - 30 ≤ (r.date.toDays : Int)) &&
          decide ((r.date.toDays : Int) ≤ ((maxDateOf c2rows).toDays : Int)))) :=
  claim_C2_last30_metric c2rows Timeframe.last30 (by decide) (Or.inl rfl)

/-- C3 (corrected): for a non-empty search term free of regex
metacharacters, the text filter retains exactly the records whose
`notes`, rendered to a string by `astype(str)` — which turns a null into
the literal string `"None"` — contain the term case-insensitively.  In
particular null-notes records *are* retained by terms contained in
"None" (case-insensitively), contrary to the claim that they never
match. -/
theorem claim_C3_text_search (term : String) (rs : List ViewRow)
    (h : term ≠ "") (hl : literalTerm term = true) :
    ∀ r : ViewRow, r ∈ textSearchFilter term rs ↔
      (r ∈ rs ∧ ∃ pre post, pre ++ lowerChars term ++ post = lowerChars (astypeStr r.notes)) := by
  intro r
  unfold textSearchFilter
  rw [if_neg h, List.mem_filter]
  constructor
  · rintro ⟨h1, h2⟩
    exact ⟨h1, (hasSubExists _ _).mp h2⟩
  · rintro ⟨h1, h2⟩
    exact ⟨h1, (hasSubExists _ _).mpr h2⟩

/-- C3 counterexample: a record with null notes is retained by the
non-empty search term "None". -/
theorem claim_C3_counterexample : textSearchFilter "None" [c3row] = [c3row] := by decide

/-- C3 witness: the corrected membership characterization at the term
"None" applied to the null-notes record. -/
theorem claim_C3_witness :
    c3row ∈ textSearchFilter "None" [c3row] ↔
      (c3row ∈ [c3row] ∧
        ∃ pre post, pre ++ lowerChars "None" ++ post = lowerChars (astypeStr c3row.notes)) :=
  claim_C3_text_search "None" [c3row] (by decide) (by decide) c3row

/-- C7 (corrected): over a non-empty filtered record set with valid
dates, monthly resampling emits exactly one bucket per calendar month
spanning the complete range between the months of the minimum and
maximum observed dates, each bucket's value the sum of the amounts in
that month — a month with no records is emitted with value `0`, not
omitted.  Weekly resampling (`'W-MON'`) does the same per seven-day
bucket, but buckets span Tuesday through Monday and are labelled by the
*ending* Monday (not weeks *starting* Monday); the chart then keeps only
the most recent twelve buckets. -/
theorem claim_C7_resampling (rs : List ViewRow) (hne : rs ≠ [])
    (hvd : ∀ r ∈ rs, r.date.valid) :
    (∀ i : Nat, (∃ v, (i, v) ∈ resampleMonthly rs) ↔
      (natMinOf (monthsOf rs) ≤ i ∧ i ≤ natMaxOf (monthsOf rs))) ∧
    (∀ i v, (i, v) ∈ resampleMonthly rs → v = monthSum i rs) ∧
    (∀ i : Nat, natMinOf (monthsOf rs) ≤ i → i ≤ natMaxOf (monthsOf rs) →
      (∀ r ∈ rs, monthIdx r.date ≠ i) → (i, 0) ∈ resampleMonthly rs) ∧
    (natMinOf (monthsOf rs) = monthIdx (minDateOf rs) ∧
      natMaxOf (monthsOf rs) = monthIdx (maxDateOf rs)) ∧
    (∀ w : Nat, (∃ v, (w, v) ∈ resampleWeekly rs) ↔
      (natMinOf (weeksOf rs) ≤ w ∧ w ≤ natMaxOf (weeksOf rs) ∧ w % 7 = 5)) ∧
    (∀ w v, (w, v) ∈ resampleWeekly rs → v = weekSum w rs) ∧
    (∀ r ∈ rs, weekBucket r.date % 7 = 5 ∧ r.date.toDays ≤ weekBucket r.date ∧
      weekBucket r.date < r.date.toDays + 7) ∧
    ((weeklyChart rs).length = min 12 (resampleWeekly rs).length ∧
      ∃ pre, pre ++ weeklyChart rs = resampleWeekly rs) := by
  obtain ⟨r0, t0, rfl⟩ : ∃ a l, rs = a :: l := by
    cases rs with
    | nil => exact absurd rfl hne
    | cons a l => exact ⟨a, l, rfl⟩
  have hmne : monthsOf (r0 :: t0) ≠ [] := by
    unfold monthsOf
    simp
  have hwne : weeksOf (r0 :: t0) ≠ [] := by
    unfold weeksOf
    simp
  obtain ⟨hminMem, hminLe⟩ := natMinOfSpec _ hmne
  obtain ⟨hmaxMem, hmaxLe⟩ := natMaxOfSpec _ hmne
  obtain ⟨hwminMem, hwminLe⟩ := natMinOfSpec _ hwne
  obtain ⟨hwmaxMem, hwmaxLe⟩ := natMaxOfSpec _ hwne
  have hlohi : natMinOf (monthsOf (r0 :: t0)) ≤ natMaxOf (monthsOf (r0 :: t0)) :=
    hminLe _ hmaxMem
  have hwlohi : natMinOf (weeksOf (r0 :: t0)) ≤ natMaxOf (weeksOf (r0 :: t0)) :=
    hwminLe _ hwmaxMem
  have hw5 : ∀ x ∈ weeksOf (r0 :: t0), x % 7 = 5 := by
    intro x hx
    unfold weeksOf at hx
    rcases List.mem_map.mp hx with ⟨r, -, rfl⟩
    exact nextMondayMod _
  have hlo5 := hw5 _ hwminMem
  have hhi5 := hw5 _ hwmaxMem
  obtain ⟨hdmMem, hdmLe⟩ := minDateOfSpec (r0 :: t0) (List.cons_ne_nil _ _)
  obtain ⟨hDMMem, hDMLe⟩ := maxDateOfSpec (r0 :: t0) (List.cons_ne_nil _ _)
  rcases List.mem_map.mp hdmMem with ⟨rm, hrm, hrmEq⟩
  rcases List.mem_map.mp hDMMem with ⟨rM, hrM, hrMEq⟩
  have hminValid : (minDateOf (r0 :: t0)).valid := hrmEq ▸ hvd rm hrm
  have hmaxValid : (maxDateOf (r0 :: t0)).valid := hrMEq ▸ hvd rM hrM
  refine ⟨?_, ?_, ?_, ⟨?_, ?_⟩, ?_, ?_, ?_, ?_, ?_⟩
  · intro i
    constructor
    · rintro ⟨v, hv⟩
      rw [memResampleMonthly] at hv
      obtain ⟨k, hk, hik, -⟩ := hv
      omega
    · rintro ⟨hilo, hihi⟩
      refine ⟨monthSum i (r0 :: t0), ?_⟩
      rw [memResampleMonthly]
      exact ⟨i - natMinOf (monthsOf (r0 :: t0)), by omega, by omega, rfl⟩
  · intro i v hv
    rw [memResampleMonthly] at hv
    obtain ⟨k, -, -, hveq⟩ := hv
    exact hveq
  · intro i h1 h2 h3
    have h0 := sumAmountsNilOfNone i (r0 :: t0) h3
    rw [← h0, memResampleMonthly]
    exact ⟨i - natMinOf (monthsOf (r0 :: t0)), by omega, by omega, rfl⟩
  · apply le_antisymm
    · have hmem : monthIdx (minDateOf (r0 :: t0)) ∈ monthsOf (r0 :: t0) := by
        unfold monthsOf
        exact List.mem_map.mpr ⟨rm, hrm, by rw [hrmEq]⟩
      exact hminLe _ hmem
    · have hmm := hminMem
      unfold monthsOf at hmm
      rcases List.mem_map.mp hmm with ⟨r, hr, hreq⟩
      exact le_of_le_of_eq (monthIdxMono hminValid (hvd r hr) (hdmLe r hr)) hreq
  · apply le_antisymm
    · have hmm := hmaxMem
      unfold monthsOf at hmm
      rcases List.mem_map.mp hmm with ⟨r, hr, hreq⟩
      exact le_of_eq_of_le hreq.symm (monthIdxMono (hvd r hr) hmaxValid (hDMLe r hr))
    · have hmem : monthIdx (maxDateOf (r0 :: t0)) ∈ monthsOf (r0 :: t0) := by
        unfold monthsOf
        exact List.mem_map.mpr ⟨rM, hrM, by rw [hrMEq]⟩
      exact hmaxLe _ hmem
  · intro w
    constructor
    · rintro ⟨v, hv⟩
      rw [memResampleWeekly] at hv
      obtain ⟨k, hk, hwk, -⟩ := hv
      omega
    · rintro ⟨hwlo, hwhi, hwmod⟩
      refine ⟨weekSum w (r0 :: t0), ?_⟩
      rw [memResampleWeekly]
      exact ⟨(w - natMinOf (weeksOf (r0 :: t0))) / 7, by omega, by omega, rfl⟩
  · intro w v hv
    rw [memResampleWeekly] at hv
    obtain ⟨k, -, -, hveq⟩ := hv
    exact hveq
  · intro r hr
    exact ⟨nextMondayMod _, nextMondayGe _, nextMondayLt _⟩
  · rw [show weeklyChart (r0 :: t0) =
      (resampleWeekly (r0 :: t0)).drop ((resampleWeekly (r0 :: t0)).length - 12) from rfl,
      List.length_drop]
    omega
  · exact ⟨(resampleWeekly (r0 :: t0)).take ((resampleWeekly (r0 :: t0)).length - 12),
      List.take_append_drop _ _⟩

/-- C7 counterexample: a Tuesday record and the following Monday's
record lie in different weeks *starting* Monday, yet `resample('W-MON')`
places both in the single bucket labelled by that Monday — the code does
not bucket by weeks starting Monday. -/
theorem claim_C7_counterexample :
    mondayStartOfWeek (Date.toDays ⟨2024, 1, 2⟩) ≠
      mondayStartOfWeek (Date.toDays ⟨2024, 1, 8⟩) ∧
    weekBucket ⟨2024, 1, 2⟩ = weekBucket ⟨2024, 1, 8⟩ ∧
    (resampleWeekly c7rows).length = 1 := by decide

/-- C7 witness: the corrected statement at a concrete two-record set
(the weekly chart keeps `min 12` of the emitted buckets). -/
theorem claim_C7_witness :
    (weeklyChart c7rows).length = min 12 (resampleWeekly c7rows).length :=
  (claim_C7_resampling c7rows (by decide) (by decide)).2.2.2.2.2.2.2.1
